import Mathlib

/-!
# Verification of the tis100node peer-to-peer communication layer

A shallow embedding of `src/node.rs`: the `Peer` handshake state machine
(wire tokens `GET`, `ACK`, `NAK`, or a decimal integer, one per line) and
the `Node` register-routing façade with wildcard (`Any`) arbitration.

Modelling conventions:
* Pipe I/O is explicit: each peer's inbound stream is a `List String` of
  lines (newline already stripped, as Rust's `BufRead::lines` does); the
  bytes a function writes are returned as a list of the exact strings
  passed to `write_all` (newline included).
* A Rust panic (failed `assert!`, `panic!`, or `unwrap` of an exhausted
  iterator) is `Option.none`.
* `poll(fds, -1)` is modelled by an oracle: a list of readiness sets, one
  per loop iteration; an exhausted oracle (the process would still be
  blocked) is `none`.
* Blocking retry loops (`Peer::send`, `Peer::read`) take fuel; running
  out of fuel (the loop would still be spinning) is `none`.
* The file-descriptor plumbing in `Peer::new` / `Pipe::new` (OS resource
  setup, asserted fd layout) is outside the embedding; only the three
  protocol fields initialised there are modelled.
-/

/-- One of the four compass directions (`enum Side` in `node.rs`). -/
inductive Side where
  | Left
  | Right
  | Up
  | Down
deriving DecidableEq, Repr

/-- `Side::index`: the discriminant, `self as usize`, always below 4. -/
def Side.index : Side → Fin 4
  | .Left => 0
  | .Right => 1
  | .Up => 2
  | .Down => 3

/-- `Side::from_index`; the source panics on `i ≥ 4` (`unreachable!`),
and every call site passes a loop index below 4, so the domain is `Fin 4`. -/
def Side.from_index : Fin 4 → Side
  | ⟨0, _⟩ => .Left
  | ⟨1, _⟩ => .Right
  | ⟨2, _⟩ => .Up
  | ⟨3, _⟩ => .Down
  | ⟨n + 4, h⟩ => absurd h (by omega)

/-- `Side::opposite`. -/
def Side.opposite : Side → Side
  | .Left => .Right
  | .Right => .Left
  | .Up => .Down
  | .Down => .Up

/-- A fixed 4-element collection indexed by `Fin 4`, the model of a Rust
`[T; 4]` array indexed by `Side::index`. -/
structure Quad (α : Type) where
  q0 : α
  q1 : α
  q2 : α
  q3 : α
deriving DecidableEq, Repr

/-- Array indexing `xs[i]`. -/
def Quad.get {α : Type} (q : Quad α) (i : Fin 4) : α :=
  match i with
  | ⟨0, _⟩ => q.q0
  | ⟨1, _⟩ => q.q1
  | ⟨2, _⟩ => q.q2
  | ⟨3, _⟩ => q.q3
  | ⟨n + 4, h⟩ => absurd h (by omega)

/-- Array update `xs[i] = a`. -/
def Quad.set {α : Type} (q : Quad α) (i : Fin 4) (a : α) : Quad α :=
  match i with
  | ⟨0, _⟩ => { q with q0 := a }
  | ⟨1, _⟩ => { q with q1 := a }
  | ⟨2, _⟩ => { q with q2 := a }
  | ⟨3, _⟩ => { q with q3 := a }
  | ⟨n + 4, h⟩ => absurd h (by omega)

@[simp] theorem Quad.get_set_same {α : Type} (q : Quad α) (i : Fin 4) (a : α) :
    (q.set i a).get i = a := by
  fin_cases i <;> rfl

theorem Quad.get_set_ne {α : Type} (q : Quad α) (i j : Fin 4) (a : α) (h : j ≠ i) :
    (q.set i a).get j = q.get j := by
  fin_cases i <;> fin_cases j <;> first | rfl | exact absurd rfl h

/-- The list `[0, 1, 2, 3]` of indices visited by a `for i in 0..4` loop. -/
def sides4 : List (Fin 4) := [0, 1, 2, 3]

/-! ## Decimal wire encoding

`try_send` writes `format!("{}\n", value)`; receivers parse tokens with
`str::parse::<i32>()`. -/

/-- The ASCII digit character for `d < 10`. -/
def digitChar (d : Nat) : Char := Char.ofNat (48 + d)

/-- The decimal digits of `n`, least significant first (`"0"` for 0). -/
def natToDigitsRev (n : Nat) : List Char :=
  if h : n < 10 then [digitChar n]
  else
    have : n / 10 < n := Nat.div_lt_self (by omega) (by omega)
    digitChar (n % 10) :: natToDigitsRev (n / 10)

/-- Decimal rendering of a natural number, most significant digit first. -/
def natToStr (n : Nat) : String := ⟨(natToDigitsRev n).reverse⟩

/-- Rust's `Display` for a signed integer: minus sign for negatives, no
plus sign, no leading zeros (model of `format!("{}", value)`). -/
def encodeI32 (v : Int) : String :=
  if v < 0 then "-" ++ natToStr (-v).toNat else natToStr v.toNat

/-- The exact line `try_send` writes for a value: `format!("{}\n", value)`. -/
def valueLine (v : Int) : String := encodeI32 v ++ "\n"

/-- The numeric value of an ASCII digit character, `none` otherwise
(model of `char::to_digit(10)`). -/
def digitVal (c : Char) : Option Nat :=
  if 48 ≤ c.toNat ∧ c.toNat ≤ 57 then some (c.toNat - 48) else none

/-- Accumulating decimal parse over a digit list; fails on any non-digit. -/
def parseDigitsAux : List Char → Nat → Option Nat
  | [], acc => some acc
  | c :: cs, acc =>
    match digitVal c with
    | some d => parseDigitsAux cs (acc * 10 + d)
    | none => none

/-- Parse a non-empty all-digit string as a natural number. -/
def parseNat : List Char → Option Nat
  | [] => none
  | cs => parseDigitsAux cs 0

/-- Character-list form of `str::parse::<i32>()`: optional leading
`+`/`-`, then one or more ASCII digits, and the value must fit in `i32`
(overflow during Rust's checked accumulation is exactly the out-of-range
condition). -/
def parseI32Chars : List Char → Option Int
  | [] => none
  | c :: cs =>
    if c = '-' then
      (parseNat cs).bind fun n => if (n : Int) ≤ 2 ^ 31 then some (-(n : Int)) else none
    else if c = '+' then
      (parseNat cs).bind fun n => if (n : Int) ≤ 2 ^ 31 - 1 then some (n : Int) else none
    else
      (parseNat (c :: cs)).bind fun n => if (n : Int) ≤ 2 ^ 31 - 1 then some (n : Int) else none

/-- Model of `str::parse::<i32>()`. -/
def parseI32 (s : String) : Option Int := parseI32Chars s.data

/-- The line splitting done by the receiver's `Lines` iterator on a line
that ends in a newline: drop the trailing `'\n'`. -/
def chomp (s : String) : String := ⟨s.data.dropLast⟩

/-! ## The Peer handshake state machine

`struct Peer` also owns the two pipes and three kept-alive descriptors;
those are I/O handles represented by the explicit stream parameters, so
the state carries exactly the three protocol fields. -/

/-- The handshake state of one `Peer` (`sent_get`, `got_get`,
`cancelled_gets` in `node.rs`). -/
structure Peer where
  sent_get : Bool
  got_get : Bool
  cancelled_gets : Nat
deriving DecidableEq, Repr

/-- The protocol-state part of `Peer::new`: `sent_get: false`,
`got_get: false`, `cancelled_gets: 0` (fd setup is outside the model). -/
def Peer.new : Peer := { sent_get := false, got_get := false, cancelled_gets := 0 }

/-- The result of one fallible peer operation: the returned value, the
peer's new state, the unconsumed rest of its inbound stream, and the
lines it wrote, in order. -/
structure PeerStep (α : Type) where
  ret : α
  peer : Peer
  input : List String
  out : List String
deriving DecidableEq, Repr

/-- The tail of `try_send` after the GET/got_get gate: write the value
line, then read the reply (`"ACK"` → true, `"NAK"` → false, anything
else → panic). -/
def Peer.send_value (p : Peer) (value : Int) (input : List String) :
    Option (PeerStep Bool) :=
  match input with
  | [] => none
  | reply :: rest =>
    if reply = "ACK" then some ⟨true, p, rest, [valueLine value]⟩
    else if reply = "NAK" then some ⟨false, p, rest, [valueLine value]⟩
    else none

/-- `Peer::try_send` (node.rs:122-144). Asserts `!sent_get`; consumes a
pending `got_get` without reading, otherwise reads one token (`"GET"`
proceeds; a decimal while `cancelled_gets > 0` is a stray retracted-request
value: decrement and report failure; anything else panics); then writes
the value and reads the reply. -/
def Peer.try_send (p : Peer) (value : Int) (input : List String) :
    Option (PeerStep Bool) :=
  if p.sent_get then none
  else if p.got_get then
    Peer.send_value { p with got_get := false } value input
  else
    match input with
    | [] => none
    | tok :: rest =>
      if tok = "GET" then Peer.send_value p value rest
      else if 0 < p.cancelled_gets ∧ (parseI32 tok).isSome then
        some ⟨false, { p with cancelled_gets := p.cancelled_gets - 1 }, rest, []⟩
      else none

/-- `Peer::send`: `while !self.try_send(value) {}`, with fuel bounding
the number of attempts (running out models the loop still spinning). -/
def Peer.send : Nat → Peer → Int → List String → Option (PeerStep Unit)
  | 0, _, _, _ => none
  | fuel + 1, p, value, input =>
    match p.try_send value input with
    | none => none
    | some st =>
      if st.ret then some ⟨(), st.peer, st.input, st.out⟩
      else
        (Peer.send fuel st.peer value st.input).map fun st2 =>
          ⟨(), st2.peer, st2.input, st.out ++ st2.out⟩

/-- `Peer::request_read` (node.rs:155-160): if not already pending, write
`"GET\n"` and set `sent_get`. Infallible and reads nothing. -/
def Peer.request_read (p : Peer) : Peer × List String :=
  if p.sent_get then (p, [])
  else ({ p with sent_get := true }, ["GET\n"])

/-- `Peer::finish_read` (node.rs:162-187). Asserts `sent_get`; reads one
token: `"GET"` with `got_get` clear records the collision; `"NAK"` with
`got_get` set clears it; a decimal while `cancelled_gets > 0` is absorbed
silently; a decimal otherwise is acknowledged (`"ACK\n"`), clears
`sent_get` and is returned; anything else panics. -/
def Peer.finish_read (p : Peer) (input : List String) :
    Option (PeerStep (Option Int)) :=
  if p.sent_get then
    match input with
    | [] => none
    | tok :: rest =>
      if tok = "GET" ∧ ¬p.got_get then
        some ⟨none, { p with got_get := true }, rest, []⟩
      else if tok = "NAK" ∧ p.got_get then
        some ⟨none, { p with got_get := false }, rest, []⟩
      else
        match parseI32 tok with
        | some v =>
          if 0 < p.cancelled_gets then
            some ⟨none, { p with cancelled_gets := p.cancelled_gets - 1 }, rest, []⟩
          else
            some ⟨some v, { p with sent_get := false }, rest, ["ACK\n"]⟩
        | none => none
  else none

/-- `Peer::cancel_read` (node.rs:189-195): if a request is pending, write
`"NAK\n"`, count it in `cancelled_gets` and clear `sent_get`. -/
def Peer.cancel_read (p : Peer) : Peer × List String :=
  if p.sent_get then
    ({ p with sent_get := false, cancelled_gets := p.cancelled_gets + 1 }, ["NAK\n"])
  else (p, [])

/-- `Peer::read`: loop of `request_read` then `finish_read` until a value
arrives, with fuel bounding the iterations. -/
def Peer.read : Nat → Peer → List String → Option (PeerStep Int)
  | 0, _, _ => none
  | fuel + 1, p, input =>
    let rq := p.request_read
    match rq.1.finish_read input with
    | none => none
    | some st =>
      match st.ret with
      | some v => some ⟨v, st.peer, st.input, rq.2 ++ st.out⟩
      | none =>
        (Peer.read fuel st.peer st.input).map fun st2 =>
          ⟨st2.ret, st2.peer, st2.input, rq.2 ++ st.out ++ st2.out⟩

/-! ## The Node façade

`struct Node` owns 4 peers indexed by `Side::index`, the `acc`/`bak`
registers and the `last` side memory. Node-level operations also thread
the four inbound streams (`Quad (List String)`) and tag each written line
with the peer index it went to, preserving global write order. -/

/-- `struct Node` (node.rs:198-204). -/
structure Node where
  peers : Quad Peer
  acc : Int
  bak : Int
  last : Option Side
deriving DecidableEq, Repr

/-- The registers of `enum Register` (node.rs:214-222). -/
inductive Register where
  | Acc
  | Bak
  | Nil
  | Side (s : Side)
  | Any
  | Last
deriving DecidableEq, Repr

/-- `Node::new` (node.rs:225-237): four fresh peers, `acc: 0`, `bak: 0`,
`last: None` (the `PeerPids`/fd layout arguments only drive the OS-level
setup outside the model). -/
def Node.new : Node :=
  { peers := ⟨Peer.new, Peer.new, Peer.new, Peer.new⟩, acc := 0, bak := 0, last := none }

/-- Replace one peer, keeping the rest of the node. -/
def Node.setPeer (n : Node) (i : Fin 4) (p : Peer) : Node :=
  { n with peers := n.peers.set i p }

/-- A node-level step result: returned value, new node, remaining inbound
streams, and the written lines tagged with the peer index they went to. -/
structure NodeStep (α : Type) where
  ret : α
  node : Node
  ins : Quad (List String)
  out : List (Fin 4 × String)
deriving DecidableEq, Repr

/-- Lift a `PeerStep` on peer `i` to the node. -/
def Node.liftPeer {α : Type} (n : Node) (i : Fin 4) (ins : Quad (List String))
    (st : PeerStep α) : NodeStep α :=
  ⟨st.ret, n.setPeer i st.peer, ins.set i st.input, st.out.map fun s => (i, s)⟩

/-- The fast-path scan of `write_any` (node.rs:250-256): for each `i` in
order, if `peers[i].got_get`, attempt `try_send`; on success return the
winning index, on failure keep scanning with the updated state. Returns
`some none` when the scan falls through to the poll loop. -/
def write_any_fast (value : Int) :
    List (Fin 4) → Node → Quad (List String) → List (Fin 4 × String) →
    Option (Option (Fin 4) × Node × Quad (List String) × List (Fin 4 × String))
  | [], n, ins, tr => some (none, n, ins, tr)
  | i :: is, n, ins, tr =>
    if (n.peers.get i).got_get then
      match (n.peers.get i).try_send value (ins.get i) with
      | none => none
      | some st =>
        if st.ret then
          some (some i, n.setPeer i st.peer, ins.set i st.input,
            tr ++ st.out.map fun s => (i, s))
        else
          write_any_fast value is (n.setPeer i st.peer) (ins.set i st.input)
            (tr ++ st.out.map fun s => (i, s))
    else write_any_fast value is n ins tr

/-- One pass of the poll loop of `write_any` (node.rs:260-267): for each
`i` in order whose descriptor polled readable, attempt `try_send`;
on success return the winning index. -/
def write_any_scan (value : Int) (ready : Quad Bool) :
    List (Fin 4) → Node → Quad (List String) → List (Fin 4 × String) →
    Option (Option (Fin 4) × Node × Quad (List String) × List (Fin 4 × String))
  | [], n, ins, tr => some (none, n, ins, tr)
  | i :: is, n, ins, tr =>
    if ready.get i then
      match (n.peers.get i).try_send value (ins.get i) with
      | none => none
      | some st =>
        if st.ret then
          some (some i, n.setPeer i st.peer, ins.set i st.input,
            tr ++ st.out.map fun s => (i, s))
        else
          write_any_scan value ready is (n.setPeer i st.peer) (ins.set i st.input)
            (tr ++ st.out.map fun s => (i, s))
    else write_any_scan value ready is n ins tr

/-- The poll loop of `write_any` (node.rs:258-268): each oracle entry is
one `poll` result; on a successful send at index `i`, set
`last = Some(Side::from_index(i))` and stop. -/
def write_any_loop (value : Int) :
    List (Quad Bool) → Node → Quad (List String) → List (Fin 4 × String) →
    Option (Fin 4 × Node × Quad (List String) × List (Fin 4 × String))
  | [], _, _, _ => none
  | ready :: oracle, n, ins, tr =>
    match write_any_scan value ready sides4 n ins tr with
    | none => none
    | some (some i, n1, ins1, tr1) =>
      some (i, { n1 with last := some (Side.from_index i) }, ins1, tr1)
    | some (none, n1, ins1, tr1) => write_any_loop value oracle n1 ins1 tr1

/-- `Node::write_any` (node.rs:249-269). The returned pair
`(winner, fast)` is ghost observability: which peer index accepted the
value, and whether it did so on the fast path (the `return` at
node.rs:253) or in the poll loop (the `return` at node.rs:265). -/
def Node.write_any (n : Node) (value : Int) (ins : Quad (List String))
    (oracle : List (Quad Bool)) :
    Option ((Fin 4 × Bool) × Node × Quad (List String) × List (Fin 4 × String)) :=
  match write_any_fast value sides4 n ins [] with
  | none => none
  | some (some i, n1, ins1, tr1) => some ((i, true), n1, ins1, tr1)
  | some (none, n1, ins1, tr1) =>
    (write_any_loop value oracle n1 ins1 tr1).map fun r =>
      ((r.1, false), r.2.1, r.2.2.1, r.2.2.2)

/-- The request phase of `read_any` (node.rs:285-287): `request_read` on
every peer in order. Infallible. -/
def read_any_requests :
    List (Fin 4) → Node → List (Fin 4 × String) → Node × List (Fin 4 × String)
  | [], n, tr => (n, tr)
  | i :: is, n, tr =>
    read_any_requests is (n.setPeer i (n.peers.get i).request_read.1)
      (tr ++ (n.peers.get i).request_read.2.map fun s => (i, s))

/-- The finish phase of `read_any` (node.rs:289-297): for each `i` in
order whose descriptor polled readable, attempt `finish_read`; the first
peer to yield a value wins and the scan breaks immediately. -/
def read_any_scan (ready : Quad Bool) :
    List (Fin 4) → Node → Quad (List String) → List (Fin 4 × String) →
    Option (Option (Fin 4 × Int) × Node × Quad (List String) × List (Fin 4 × String))
  | [], n, ins, tr => some (none, n, ins, tr)
  | i :: is, n, ins, tr =>
    if ready.get i then
      match (n.peers.get i).finish_read (ins.get i) with
      | none => none
      | some st =>
        match st.ret with
        | some x =>
          some (some (i, x), n.setPeer i st.peer, ins.set i st.input,
            tr ++ st.out.map fun s => (i, s))
        | none =>
          read_any_scan ready is (n.setPeer i st.peer) (ins.set i st.input)
            (tr ++ st.out.map fun s => (i, s))
    else read_any_scan ready is n ins tr

/-- The cancel phase of `read_any` (node.rs:300-302): `cancel_read` on
every peer in order. Infallible. -/
def read_any_cancel :
    List (Fin 4) → Node → List (Fin 4 × String) → Node × List (Fin 4 × String)
  | [], n, tr => (n, tr)
  | i :: is, n, tr =>
    read_any_cancel is (n.setPeer i (n.peers.get i).cancel_read.1)
      (tr ++ (n.peers.get i).cancel_read.2.map fun s => (i, s))

/-- The outer loop of `read_any` (node.rs:284-305): request from all,
poll (one oracle entry per iteration), scan; when a peer yields a value,
set `last`, cancel all pending requests and return. The winning index is
returned alongside the value as ghost observability. -/
def read_any_loop :
    List (Quad Bool) → Node → Quad (List String) → List (Fin 4 × String) →
    Option ((Fin 4 × Int) × Node × Quad (List String) × List (Fin 4 × String))
  | [], _, _, _ => none
  | ready :: oracle, n, ins, tr =>
    match read_any_scan ready sides4 (read_any_requests sides4 n tr).1 ins
        (read_any_requests sides4 n tr).2 with
    | none => none
    | some (some (i, x), n1, ins1, tr1) =>
      some ((i, x),
        (read_any_cancel sides4 { n1 with last := some (Side.from_index i) } tr1).1, ins1,
        (read_any_cancel sides4 { n1 with last := some (Side.from_index i) } tr1).2)
    | some (none, n1, ins1, tr1) => read_any_loop oracle n1 ins1 tr1

/-- `Node::read_any` (node.rs:281-306). -/
def Node.read_any (n : Node) (ins : Quad (List String)) (oracle : List (Quad Bool)) :
    Option ((Fin 4 × Int) × Node × Quad (List String) × List (Fin 4 × String)) :=
  read_any_loop oracle n ins []

/-- Delegation of a write to one peer's blocking `send`. -/
def Node.sendTo (n : Node) (i : Fin 4) (value : Int) (ins : Quad (List String))
    (fuel : Nat) : Option (NodeStep Unit) :=
  (Peer.send fuel (n.peers.get i) value (ins.get i)).map fun st => n.liftPeer i ins st

/-- Delegation of a read to one peer's blocking `read`. -/
def Node.readFrom (n : Node) (i : Fin 4) (ins : Quad (List String))
    (fuel : Nat) : Option (NodeStep Int) :=
  (Peer.read fuel (n.peers.get i) (ins.get i)).map fun st => n.liftPeer i ins st

/-- `Node::write` (node.rs:239-247): route by `(target, self.last)`. -/
def Node.write (n : Node) (value : Int) (target : Register)
    (ins : Quad (List String)) (oracle : List (Quad Bool)) (fuel : Nat) :
    Option (NodeStep Unit) :=
  match target, n.last with
  | .Acc, _ => some ⟨(), { n with acc := value }, ins, []⟩
  | .Bak, _ => some ⟨(), { n with bak := value }, ins, []⟩
  | .Nil, _ => some ⟨(), n, ins, []⟩
  | .Last, none => some ⟨(), n, ins, []⟩
  | .Side s, _ => n.sendTo s.index value ins fuel
  | .Last, some s => n.sendTo s.index value ins fuel
  | .Any, _ => (n.write_any value ins oracle).map fun r => ⟨(), r.2.1, r.2.2.1, r.2.2.2⟩

/-- `Node::read` (node.rs:271-279): route by `(target, self.last)`. -/
def Node.read (n : Node) (target : Register)
    (ins : Quad (List String)) (oracle : List (Quad Bool)) (fuel : Nat) :
    Option (NodeStep Int) :=
  match target, n.last with
  | .Acc, _ => some ⟨n.acc, n, ins, []⟩
  | .Bak, _ => some ⟨n.bak, n, ins, []⟩
  | .Nil, _ => some ⟨0, n, ins, []⟩
  | .Last, none => some ⟨0, n, ins, []⟩
  | .Side s, _ => n.readFrom s.index ins fuel
  | .Last, some s => n.readFrom s.index ins fuel
  | .Any, _ => (n.read_any ins oracle).map fun r => ⟨r.1.2, r.2.1, r.2.2.1, r.2.2.2⟩

/-! ## Round-trip of the decimal wire encoding -/

theorem digitVal_digitChar {d : Nat} (h : d < 10) : digitVal (digitChar d) = some d := by
  interval_cases d <;> decide

theorem digitChar_not_sign {d : Nat} (h : d < 10) :
    digitChar d ≠ '-' ∧ digitChar d ≠ '+' := by
  interval_cases d <;> decide

theorem natToDigitsRev_ne_nil (n : Nat) : natToDigitsRev n ≠ [] := by
  rw [natToDigitsRev]
  split <;> simp

theorem natToDigitsRev_mem {n : Nat} {c : Char} (h : c ∈ natToDigitsRev n) :
    ∃ d, d < 10 ∧ c = digitChar d := by
  induction n using Nat.strong_induction_on with
  | _ n ih =>
    rw [natToDigitsRev] at h
    split at h
    · next hn =>
      simp only [List.mem_singleton] at h
      exact ⟨n, hn, h⟩
    · next hn =>
      rcases List.mem_cons.mp h with h | h
      · exact ⟨n % 10, Nat.mod_lt _ (by omega), h⟩
      · exact ih (n / 10) (Nat.div_lt_self (by omega) (by omega)) h

theorem parseDigitsAux_append (xs ys : List Char) (acc : Nat) :
    parseDigitsAux (xs ++ ys) acc = (parseDigitsAux xs acc).bind fun m => parseDigitsAux ys m := by
  induction xs generalizing acc with
  | nil => simp [parseDigitsAux]
  | cons c cs ih =>
    cases h : digitVal c <;> simp [parseDigitsAux, h, ih]

theorem parseDigitsAux_digits (n : Nat) :
    ∀ acc, parseDigitsAux (natToDigitsRev n).reverse acc =
      some (acc * 10 ^ (natToDigitsRev n).length + n) := by
  induction n using Nat.strong_induction_on with
  | _ n ih =>
    intro acc
    rw [natToDigitsRev]
    split
    · next hn =>
      simp [parseDigitsAux, digitVal_digitChar hn]
    · next hn =>
      have hrec := ih (n / 10) (Nat.div_lt_self (by omega) (by omega))
      have hmod : n % 10 < 10 := Nat.mod_lt _ (by omega)
      rw [List.reverse_cons, parseDigitsAux_append, hrec acc]
      simp only [Option.some_bind, parseDigitsAux, digitVal_digitChar hmod,
        List.length_cons]
      congr 1
      have hdm := Nat.div_add_mod n 10
      calc (acc * 10 ^ (natToDigitsRev (n / 10)).length + n / 10) * 10 + n % 10
          = acc * (10 ^ (natToDigitsRev (n / 10)).length * 10) + (10 * (n / 10) + n % 10) := by
            ring
        _ = acc * 10 ^ ((natToDigitsRev (n / 10)).length + 1) + n := by
            rw [hdm, pow_succ]

theorem parseNat_natToDigitsRev (n : Nat) :
    parseNat (natToDigitsRev n).reverse = some n := by
  have h := parseDigitsAux_digits n 0
  cases hrev : (natToDigitsRev n).reverse with
  | nil => exact absurd (List.reverse_eq_nil_iff.mp hrev) (natToDigitsRev_ne_nil n)
  | cons c cs =>
    rw [hrev] at h
    simpa [parseNat] using h

theorem parseI32_encodeI32 (v : Int) (h1 : -(2 ^ 31) ≤ v) (h2 : v ≤ 2 ^ 31 - 1) :
    parseI32 (encodeI32 v) = some v := by
  by_cases hv : v < 0
  · have hdata : (encodeI32 v).data = '-' :: (natToDigitsRev (-v).toNat).reverse := by
      simp [encodeI32, if_pos hv, natToStr]
    have hnn : (0 : Int) ≤ -v := by omega
    have hcast : (((-v).toNat : Int)) = -v := Int.toNat_of_nonneg hnn
    have hle : (((-v).toNat : Int)) ≤ 2 ^ 31 := by rw [hcast]; omega
    rw [parseI32, hdata, parseI32Chars, if_pos (show ('-' : Char) = '-' from rfl),
      parseNat_natToDigitsRev, Option.some_bind, if_pos hle, hcast]
    congr 1
    omega
  · have hdata : (encodeI32 v).data = (natToDigitsRev v.toNat).reverse := by
      simp [encodeI32, if_neg hv, natToStr]
    have hcast : ((v.toNat : Int)) = v := Int.toNat_of_nonneg (by omega)
    have hle : ((v.toNat : Int)) ≤ 2 ^ 31 - 1 := by rw [hcast]; omega
    rw [parseI32, hdata]
    cases hrev : (natToDigitsRev v.toNat).reverse with
    | nil => exact absurd (List.reverse_eq_nil_iff.mp hrev) (natToDigitsRev_ne_nil v.toNat)
    | cons c cs =>
      have hcmem : c ∈ natToDigitsRev v.toNat := by
        have hm : c ∈ (natToDigitsRev v.toNat).reverse := by
          rw [hrev]
          exact List.mem_cons_self _ _
        simpa using hm
      obtain ⟨d, hd, rfl⟩ := natToDigitsRev_mem hcmem
      obtain ⟨hne1, hne2⟩ := digitChar_not_sign hd
      rw [parseI32Chars, if_neg hne1, if_neg hne2, ← hrev, parseNat_natToDigitsRev,
        Option.some_bind, if_pos hle, hcast]

theorem chomp_valueLine (v : Int) : chomp (valueLine v) = encodeI32 v := by
  show String.mk ((encodeI32 v).data ++ ['\n']).dropLast = encodeI32 v
  rw [List.dropLast_concat]

theorem parseI32_ne_token {tok : String} {v : Int} (h : parseI32 tok = some v) :
    tok ≠ "GET" ∧ tok ≠ "ACK" ∧ tok ≠ "NAK" := by
  refine ⟨?_, ?_, ?_⟩ <;> rintro rfl <;>
    simp [parseI32, parseI32Chars, parseNat, parseDigitsAux, digitVal] at h

/-! ## Claim theorems: peer-level claims -/

/-- C9: a freshly constructed Node starts with `acc = 0`, `bak = 0`,
`last = None`, and all four peers Idle (`sent_get = false`,
`got_get = false`, `cancelled_gets = 0`), so the first `read(Acc)`,
`read(Bak)`, `read(Nil)` and `read(Last)` all return 0 without touching
any peer. -/
theorem node_new_initial_state :
    Node.new.acc = 0 ∧ Node.new.bak = 0 ∧ Node.new.last = none ∧
    (∀ i : Fin 4, Node.new.peers.get i =
      { sent_get := false, got_get := false, cancelled_gets := 0 }) ∧
    (∀ ins oracle fuel,
      Node.read Node.new .Acc ins oracle fuel = some ⟨0, Node.new, ins, []⟩ ∧
      Node.read Node.new .Bak ins oracle fuel = some ⟨0, Node.new, ins, []⟩ ∧
      Node.read Node.new .Nil ins oracle fuel = some ⟨0, Node.new, ins, []⟩ ∧
      Node.read Node.new .Last ins oracle fuel = some ⟨0, Node.new, ins, []⟩) := by
  refine ⟨rfl, rfl, rfl, ?_, ?_⟩
  · intro i
    fin_cases i <;> rfl
  · intro ins oracle fuel
    exact ⟨rfl, rfl, rfl, rfl⟩

/-- C6: `read(Nil)` and `write(v, Nil)` are no-ops on every node — they
return 0 / discard the value and leave the whole node untouched with no
pipe I/O, whatever `last` holds; `read(Last)` and `write(v, Last)` are
the same no-ops whenever `last = None`. -/
theorem nil_and_unresolved_last_are_noops (n : Node) (v : Int)
    (ins : Quad (List String)) (oracle : List (Quad Bool)) (fuel : Nat) :
    Node.read n .Nil ins oracle fuel = some ⟨0, n, ins, []⟩ ∧
    Node.write n v .Nil ins oracle fuel = some ⟨(), n, ins, []⟩ ∧
    (n.last = none →
      Node.read n .Last ins oracle fuel = some ⟨0, n, ins, []⟩ ∧
      Node.write n v .Last ins oracle fuel = some ⟨(), n, ins, []⟩) := by
  obtain ⟨peers, acc, bak, last⟩ := n
  refine ⟨?_, ?_, ?_⟩
  · cases last <;> rfl
  · cases last <;> rfl
  · intro h
    cases last with
    | none => exact ⟨rfl, rfl⟩
    | some s => exact Option.noConfusion h

/-- C6 witness: the Nil no-ops evaluated on a node whose `last` is
already resolved to a side (the spec's scenario: `read(Nil)` after an
Any transfer on Left), and the Last no-ops on a fresh node with
`last = None` discharged concretely. -/
theorem nil_and_unresolved_last_are_noops_witness :
    Node.read { Node.new with last := some Side.Left } .Nil ⟨[], [], [], []⟩ [] 0 =
      some ⟨0, { Node.new with last := some Side.Left }, ⟨[], [], [], []⟩, []⟩ ∧
    Node.write { Node.new with last := some Side.Left } 5 .Nil ⟨[], [], [], []⟩ [] 0 =
      some ⟨(), { Node.new with last := some Side.Left }, ⟨[], [], [], []⟩, []⟩ ∧
    Node.read Node.new .Last ⟨[], [], [], []⟩ [] 0 =
      some ⟨0, Node.new, ⟨[], [], [], []⟩, []⟩ ∧
    Node.write Node.new 5 .Last ⟨[], [], [], []⟩ [] 0 =
      some ⟨(), Node.new, ⟨[], [], [], []⟩, []⟩ := by
  have h1 := nil_and_unresolved_last_are_noops { Node.new with last := some Side.Left } 5
    ⟨[], [], [], []⟩ [] 0
  have h2 := nil_and_unresolved_last_are_noops Node.new 5 ⟨[], [], [], []⟩ [] 0
  exact ⟨h1.1, h1.2.1, (h2.2.2 rfl).1, (h2.2.2 rfl).2⟩

/-- C8: `request_read` is idempotent: a first call on a non-pending peer
writes exactly one `"GET\n"` and sets `sent_get`, a call on a pending
peer writes nothing and changes nothing, and in particular the second of
two consecutive calls is observably inert, so two calls produce the same
state and the same bytes as one. -/
theorem request_read_idempotent (p : Peer) :
    (p.sent_get = false → p.request_read = ({ p with sent_get := true }, ["GET\n"])) ∧
    (p.sent_get = true → p.request_read = (p, [])) ∧
    p.request_read.1.request_read = (p.request_read.1, []) ∧
    p.request_read.2 ++ p.request_read.1.request_read.2 = p.request_read.2 := by
  by_cases h : p.sent_get <;> simp [Peer.request_read, h]

/-- C8 witness: both branches exercised on concrete peers. -/
theorem request_read_idempotent_witness :
    Peer.new.request_read = ({ Peer.new with sent_get := true }, ["GET\n"]) ∧
    Peer.new.request_read.1.request_read = (Peer.new.request_read.1, []) :=
  ⟨(request_read_idempotent Peer.new).1 rfl, (request_read_idempotent Peer.new).2.2.1⟩

/-- C2: with `sent_get` set, `finish_read` on the next inbound token:
`"GET"` with `got_get` clear sets `got_get` and returns none; `"NAK"`
with `got_get` set clears `got_get` and returns none; a decimal while
`cancelled_gets > 0` decrements the counter and returns none, writing
nothing and keeping `sent_get`; a decimal `v` with `cancelled_gets = 0`
writes `"ACK\n"`, clears `sent_get` and returns `v`; anything else
panics. -/
theorem finish_read_spec (p : Peer) (tok : String) (rest : List String) (v : Int)
    (hs : p.sent_get = true) :
    (tok = "GET" → p.got_get = false →
      p.finish_read (tok :: rest) = some ⟨none, { p with got_get := true }, rest, []⟩) ∧
    (tok = "NAK" → p.got_get = true →
      p.finish_read (tok :: rest) = some ⟨none, { p with got_get := false }, rest, []⟩) ∧
    (parseI32 tok = some v → 0 < p.cancelled_gets →
      p.finish_read (tok :: rest) =
        some ⟨none, { p with cancelled_gets := p.cancelled_gets - 1 }, rest, []⟩) ∧
    (parseI32 tok = some v → p.cancelled_gets = 0 →
      p.finish_read (tok :: rest) =
        some ⟨some v, { p with sent_get := false }, rest, ["ACK\n"]⟩) ∧
    (¬(tok = "GET" ∧ p.got_get = false) → ¬(tok = "NAK" ∧ p.got_get = true) →
      parseI32 tok = none → p.finish_read (tok :: rest) = none) := by
  refine ⟨?_, ?_, ?_, ?_, ?_⟩
  · rintro rfl hg
    simp [Peer.finish_read, hs, hg]
  · rintro rfl hg
    simp [Peer.finish_read, hs, hg]
  · intro hp hc
    obtain ⟨h1, _, h3⟩ := parseI32_ne_token hp
    simp [Peer.finish_read, hs, h1, h3, hp, hc]
  · intro hp hc
    obtain ⟨h1, _, h3⟩ := parseI32_ne_token hp
    simp [Peer.finish_read, hs, h1, h3, hp, hc]
  · intro h1 h2 hp
    rcases Bool.eq_false_or_eq_true p.got_get with hg | hg
    · have hn : tok ≠ "NAK" := fun h => h2 ⟨h, hg⟩
      simp [Peer.finish_read, hs, hg, hp, hn]
    · have hn : tok ≠ "GET" := fun h => h1 ⟨h, hg⟩
      simp [Peer.finish_read, hs, hg, hp, hn]

/-- C2 witness: all five branches exercised at concrete inputs. -/
theorem finish_read_spec_witness :
    (Peer.mk true false 0).finish_read ["GET"] = some ⟨none, Peer.mk true true 0, [], []⟩ ∧
    (Peer.mk true true 0).finish_read ["NAK"] = some ⟨none, Peer.mk true false 0, [], []⟩ ∧
    (Peer.mk true false 2).finish_read ["7"] = some ⟨none, Peer.mk true false 1, [], []⟩ ∧
    (Peer.mk true false 0).finish_read ["7"] = some ⟨some 7, Peer.mk false false 0, [], ["ACK\n"]⟩ ∧
    (Peer.mk true false 0).finish_read ["XYZ"] = none := by
  refine ⟨?_, ?_, ?_, ?_, ?_⟩
  · exact (finish_read_spec (Peer.mk true false 0) "GET" [] 0 rfl).1 rfl rfl
  · exact (finish_read_spec (Peer.mk true true 0) "NAK" [] 0 rfl).2.1 rfl rfl
  · exact (finish_read_spec (Peer.mk true false 2) "7" [] 7 rfl).2.2.1 (by decide) (by decide)
  · exact (finish_read_spec (Peer.mk true false 0) "7" [] 7 rfl).2.2.2.1 (by decide) rfl
  · exact (finish_read_spec (Peer.mk true false 0) "XYZ" [] 0 rfl).2.2.2.2
      (by decide) (by decide) (by decide)

/-- C3: with `sent_get` clear, `try_send(v)`: a pending `got_get` is
consumed without reading a token, then `v` is written as one decimal line
and the reply decides the result (`"ACK"` true, `"NAK"` false, anything
else panics); without `got_get` one token is read first — `"GET"`
proceeds to the same send, a decimal while `cancelled_gets > 0`
decrements the counter and fails without writing `v`, anything else
panics. -/
theorem try_send_spec (p : Peer) (v w : Int) (tok reply : String) (rest : List String)
    (hs : p.sent_get = false) :
    (p.got_get = true →
      (reply = "ACK" → p.try_send v (reply :: rest) =
        some ⟨true, { p with got_get := false }, rest, [valueLine v]⟩) ∧
      (reply = "NAK" → p.try_send v (reply :: rest) =
        some ⟨false, { p with got_get := false }, rest, [valueLine v]⟩) ∧
      (reply ≠ "ACK" → reply ≠ "NAK" → p.try_send v (reply :: rest) = none)) ∧
    (p.got_get = false →
      (tok = "GET" →
        (reply = "ACK" → p.try_send v (tok :: reply :: rest) =
          some ⟨true, p, rest, [valueLine v]⟩) ∧
        (reply = "NAK" → p.try_send v (tok :: reply :: rest) =
          some ⟨false, p, rest, [valueLine v]⟩) ∧
        (reply ≠ "ACK" → reply ≠ "NAK" → p.try_send v (tok :: reply :: rest) = none)) ∧
      (parseI32 tok = some w → 0 < p.cancelled_gets →
        p.try_send v (tok :: rest) =
          some ⟨false, { p with cancelled_gets := p.cancelled_gets - 1 }, rest, []⟩) ∧
      (tok ≠ "GET" → ¬(0 < p.cancelled_gets ∧ (parseI32 tok).isSome) →
        p.try_send v (tok :: rest) = none)) := by
  refine ⟨?_, ?_⟩
  · intro hg
    refine ⟨?_, ?_, ?_⟩
    · rintro rfl
      simp [Peer.try_send, Peer.send_value, hs, hg]
    · rintro rfl
      simp [Peer.try_send, Peer.send_value, hs, hg]
    · intro h1 h2
      simp [Peer.try_send, Peer.send_value, hs, hg, h1, h2]
  · intro hg
    refine ⟨?_, ?_, ?_⟩
    · rintro rfl
      refine ⟨?_, ?_, ?_⟩
      · rintro rfl
        simp [Peer.try_send, Peer.send_value, hs, hg]
      · rintro rfl
        simp [Peer.try_send, Peer.send_value, hs, hg]
      · intro h1 h2
        simp [Peer.try_send, Peer.send_value, hs, hg, h1, h2]
    · intro hp hc
      have h1 : tok ≠ "GET" := (parseI32_ne_token hp).1
      simp [Peer.try_send, hs, hg, h1, hp, hc]
    · intro h1 h2
      simp [Peer.try_send, hs, hg, h1, h2]

/-- C3 witness: each branch of `try_send` exercised at concrete inputs. -/
theorem try_send_spec_witness :
    (Peer.mk false true 0).try_send 5 ["ACK"] =
      some ⟨true, Peer.mk false false 0, [], [valueLine 5]⟩ ∧
    (Peer.mk false false 0).try_send 5 ["GET", "NAK"] =
      some ⟨false, Peer.mk false false 0, [], [valueLine 5]⟩ ∧
    (Peer.mk false false 3).try_send 5 ["-9"] =
      some ⟨false, Peer.mk false false 2, [], []⟩ ∧
    (Peer.mk false false 0).try_send 5 ["WAT"] = none := by
  refine ⟨?_, ?_, ?_, ?_⟩
  · exact ((try_send_spec (Peer.mk false true 0) 5 0 "" "ACK" [] rfl).1 rfl).1 rfl
  · exact (((try_send_spec (Peer.mk false false 0) 5 0 "GET" "NAK" [] rfl).2 rfl).1 rfl).2.1 rfl
  · exact ((try_send_spec (Peer.mk false false 3) 5 (-9) "-9" "" [] rfl).2 rfl).2.1
      (by decide) (by decide)
  · exact ((try_send_spec (Peer.mk false false 0) 5 0 "WAT" "" [] rfl).2 rfl).2.2
      (by decide) (by decide)

/-- C7: every inbound token invalid in the current handshake state is
fatal (the model's `none`), never a false/none retry: in `try_send`, a
decimal with `cancelled_gets = 0`, any pre-send token other than `"GET"`
or an absorbable stray decimal, and any reply other than `"ACK"`/`"NAK"`;
in `finish_read`, any token that is neither `"GET"` (with `got_get`
clear), `"NAK"` (with `got_get` set), nor a decimal. -/
theorem protocol_violation_fatal (p : Peer) (v w : Int) (tok reply : String)
    (rest : List String) :
    (p.sent_get = false → p.got_get = false → parseI32 tok = some w →
      p.cancelled_gets = 0 → p.try_send v (tok :: rest) = none) ∧
    (p.sent_get = false → p.got_get = false → tok ≠ "GET" → parseI32 tok = none →
      p.try_send v (tok :: rest) = none) ∧
    (p.sent_get = false → p.got_get = true → reply ≠ "ACK" → reply ≠ "NAK" →
      p.try_send v (reply :: rest) = none) ∧
    (p.sent_get = false → p.got_get = false → reply ≠ "ACK" → reply ≠ "NAK" →
      p.try_send v ("GET" :: reply :: rest) = none) ∧
    (p.sent_get = true → ¬(tok = "GET" ∧ p.got_get = false) →
      ¬(tok = "NAK" ∧ p.got_get = true) → parseI32 tok = none →
      p.finish_read (tok :: rest) = none) := by
  refine ⟨?_, ?_, ?_, ?_, ?_⟩
  · intro hs hg hp hc
    have h1 : tok ≠ "GET" := (parseI32_ne_token hp).1
    simp [Peer.try_send, hs, hg, h1, hc]
  · intro hs hg h1 hp
    simp [Peer.try_send, hs, hg, h1, hp]
  · intro hs hg h1 h2
    simp [Peer.try_send, Peer.send_value, hs, hg, h1, h2]
  · intro hs hg h1 h2
    simp [Peer.try_send, Peer.send_value, hs, hg, h1, h2]
  · intro hs h1 h2 hp
    exact (finish_read_spec p tok rest 0 hs).2.2.2.2 h1 h2 hp

/-- C7 witness: each fatal case exercised at a concrete input. -/
theorem protocol_violation_fatal_witness :
    (Peer.mk false false 0).try_send 1 ["17"] = none ∧
    (Peer.mk false false 1).try_send 1 ["FOO"] = none ∧
    (Peer.mk false true 0).try_send 1 ["GET"] = none ∧
    (Peer.mk false false 0).try_send 1 ["GET", "13"] = none ∧
    (Peer.mk true true 0).finish_read ["GET"] = none := by
  refine ⟨?_, ?_, ?_, ?_, ?_⟩
  · exact (protocol_violation_fatal (Peer.mk false false 0) 1 17 "17" "" []).1
      rfl rfl (by decide) rfl
  · exact (protocol_violation_fatal (Peer.mk false false 1) 1 0 "FOO" "" []).2.1
      rfl rfl (by decide) (by decide)
  · exact (protocol_violation_fatal (Peer.mk false true 0) 1 0 "" "GET" []).2.2.1
      rfl rfl (by decide) (by decide)
  · exact (protocol_violation_fatal (Peer.mk false false 0) 1 0 "" "13" []).2.2.2.1
      rfl rfl (by decide) (by decide)
  · exact (protocol_violation_fatal (Peer.mk true true 0) 1 0 "GET" "" []).2.2.2.2
      rfl (by simp) (by simp) (by decide)

/-- C10: `cancelled_gets` is only ever decremented under a
`cancelled_gets > 0` guard (the stray-integer branch of `try_send` and
the retracted-value branch of `finish_read`), only ever incremented by
`cancel_read`, and untouched by `request_read`; in particular the `usize`
subtraction is exact (no underflow) in every reachable case. -/
theorem cancelled_gets_no_underflow (p : Peer) (v : Int) (input : List String) :
    (∀ st, p.try_send v input = some st →
      st.peer.cancelled_gets = p.cancelled_gets ∨
        (0 < p.cancelled_gets ∧ st.peer.cancelled_gets + 1 = p.cancelled_gets)) ∧
    (∀ st, p.finish_read input = some st →
      st.peer.cancelled_gets = p.cancelled_gets ∨
        (0 < p.cancelled_gets ∧ st.peer.cancelled_gets + 1 = p.cancelled_gets)) ∧
    (p.cancel_read.1.cancelled_gets = p.cancelled_gets ∨
      p.cancel_read.1.cancelled_gets = p.cancelled_gets + 1) ∧
    p.request_read.1.cancelled_gets = p.cancelled_gets := by
  refine ⟨?_, ?_, ?_, ?_⟩
  · intro st h
    unfold Peer.try_send Peer.send_value at h
    iterate 8 (all_goals try split at h)
    all_goals first
      | exact Option.noConfusion h
      | (injection h with h2; subst h2; simp_all; try omega)
  · intro st h
    unfold Peer.finish_read at h
    iterate 8 (all_goals try split at h)
    all_goals first
      | exact Option.noConfusion h
      | (injection h with h2; subst h2; simp_all; try omega)
  · unfold Peer.cancel_read
    split_ifs <;> simp
  · unfold Peer.request_read
    split_ifs <;> simp

/-- C10 witness: the guarded decrement and the increment at concrete
inputs. -/
theorem cancelled_gets_no_underflow_witness :
    ((Peer.mk true false 2).finish_read ["7"] = some ⟨none, Peer.mk true false 1, [], []⟩ →
      (Peer.mk true false 1 : Peer).cancelled_gets = (Peer.mk true false 2 : Peer).cancelled_gets ∨
        (0 < (Peer.mk true false 2 : Peer).cancelled_gets ∧
          (Peer.mk true false 1 : Peer).cancelled_gets + 1 =
            (Peer.mk true false 2 : Peer).cancelled_gets)) ∧
    ((Peer.mk true false 0 : Peer).cancel_read.1.cancelled_gets =
        (Peer.mk true false 0 : Peer).cancelled_gets ∨
      (Peer.mk true false 0 : Peer).cancel_read.1.cancelled_gets =
        (Peer.mk true false 0 : Peer).cancelled_gets + 1) :=
  ⟨fun h => (cancelled_gets_no_underflow (Peer.mk true false 2) 0 ["7"]).2.1 _ h,
    (cancelled_gets_no_underflow (Peer.mk true false 0) 0 []).2.2.1⟩

/-- C5: the decimal line written by `try_send`, split back into a token
by the receiver's line iterator, is parsed by `finish_read`'s integer
branch to exactly the value sent, for every value in the `i32` range,
negative values and zero included; the receiving end of a completed
`send`/`read` exchange therefore yields exactly the sent value. -/
theorem send_read_roundtrip (v : Int) (h1 : -(2 ^ 31) ≤ v) (h2 : v ≤ 2 ^ 31 - 1) :
    chomp (valueLine v) = encodeI32 v ∧
    parseI32 (encodeI32 v) = some v ∧
    (∀ (p : Peer) (rest : List String), p.sent_get = false → p.got_get = true →
      p.try_send v ("ACK" :: rest) =
        some ⟨true, { p with got_get := false }, rest, [valueLine v]⟩) ∧
    (∀ (p : Peer) (rest : List String), p.sent_get = true → p.got_get = false →
      p.cancelled_gets = 0 →
      p.finish_read (chomp (valueLine v) :: rest) =
        some ⟨some v, { p with sent_get := false }, rest, ["ACK\n"]⟩) := by
  have hc := chomp_valueLine v
  have hp := parseI32_encodeI32 v h1 h2
  refine ⟨hc, hp, ?_, ?_⟩
  · intro p rest hs hg
    exact ((try_send_spec p v 0 "" "ACK" rest hs).1 hg).1 rfl
  · intro p rest hs hg hz
    rw [hc]
    exact (finish_read_spec p (encodeI32 v) rest v hs).2.2.2.1 hp hz

/-- C5 witness: round-trip at a concrete negative value. -/
theorem send_read_roundtrip_witness :
    chomp (valueLine (-42)) = encodeI32 (-42) ∧ parseI32 (encodeI32 (-42)) = some (-42) :=
  ⟨(send_read_roundtrip (-42) (by decide) (by decide)).1,
    (send_read_roundtrip (-42) (by decide) (by decide)).2.1⟩

/-! ## Claim theorems: wildcard send (`write_any`) and `last` -/

theorem setPeer_last (n : Node) (i : Fin 4) (p : Peer) : (n.setPeer i p).last = n.last := rfl

/-- The fast-path scan never touches `last`. -/
theorem write_any_fast_last (value : Int) :
    ∀ (l : List (Fin 4)) (n : Node) ins tr r n' ins' tr',
      write_any_fast value l n ins tr = some (r, n', ins', tr') → n'.last = n.last := by
  intro l
  induction l with
  | nil =>
    intro n ins tr r n' ins' tr' h
    simp only [write_any_fast, Option.some.injEq, Prod.mk.injEq] at h
    rw [← h.2.1]
  | cons i is ih =>
    intro n ins tr r n' ins' tr' h
    rw [write_any_fast] at h
    split at h
    · split at h
      · exact Option.noConfusion h
      · split at h
        · simp only [Option.some.injEq, Prod.mk.injEq] at h
          rw [← h.2.1]
          rfl
        · have hres := ih _ _ _ _ _ _ _ h
          exact hres.trans rfl
    · exact ih _ _ _ _ _ _ _ h

/-- The poll loop of `write_any` stamps the winning side into `last`. -/
theorem write_any_loop_last (value : Int) :
    ∀ (oracle : List (Quad Bool)) (n : Node) ins tr i n' ins' tr',
      write_any_loop value oracle n ins tr = some (i, n', ins', tr') →
      n'.last = some (Side.from_index i) := by
  intro oracle
  induction oracle with
  | nil => intro n ins tr i n' ins' tr' h; exact Option.noConfusion h
  | cons ready rest ih =>
    intro n ins tr i n' ins' tr' h
    rw [write_any_loop] at h
    split at h
    · exact Option.noConfusion h
    · simp only [Option.some.injEq, Prod.mk.injEq] at h
      obtain ⟨hj, hn, -, -⟩ := h
      rw [← hn, ← hj]
    · exact ih _ _ _ _ _ _ _ h

/-- C1 counterexample: a `write(7, Any)` that completes through
`write_any`'s fast path (peer 0 already in `PeerWantsRead`, i.e.
`got_get` set, and replying `"ACK"`) delivers the value to side 0 but
leaves `last = none` — the fast-path `return` at node.rs:253 does not
record the accepting side, so `last` is not updated on that path. -/
theorem write_any_fast_path_last_counterexample :
    Node.write_any
      { peers := ⟨{ sent_get := false, got_get := true, cancelled_gets := 0 },
          Peer.new, Peer.new, Peer.new⟩, acc := 0, bak := 0, last := none }
      7 ⟨["ACK"], [], [], []⟩ [] =
      some ((0, true), Node.new, ⟨[], [], [], []⟩, [(0, valueLine 7)]) ∧
    Node.new.last ≠ some (Side.from_index 0) := by
  exact ⟨rfl, by decide⟩

/-- C1 amended: when `write_any` completes through the poll loop
(ghost flag `fast = false`), `last` is set to the side of the peer that
accepted the value; a delivery through the fast path for a peer already
in `PeerWantsRead` (`fast = true`) leaves `last` unchanged instead of
recording the accepting side. -/
theorem write_any_last_amended (n : Node) (value : Int) (ins : Quad (List String))
    (oracle : List (Quad Bool)) (w : Fin 4) (fast : Bool) (n' : Node)
    (ins' : Quad (List String)) (tr' : List (Fin 4 × String))
    (h : n.write_any value ins oracle = some ((w, fast), n', ins', tr')) :
    (fast = false → n'.last = some (Side.from_index w)) ∧
    (fast = true → n'.last = n.last) := by
  unfold Node.write_any at h
  split at h
  · exact Option.noConfusion h
  · next i n1 ins1 tr1 heq =>
    simp only [Option.some.injEq, Prod.mk.injEq] at h
    obtain ⟨⟨hw, hfast⟩, hn, -, -⟩ := h
    constructor
    · intro h0
      rw [← hfast] at h0
      exact Bool.noConfusion h0
    · intro _
      rw [← hn]
      exact write_any_fast_last value sides4 n ins [] _ _ _ _ heq
  · next n1 ins1 tr1 heq =>
    rw [Option.map_eq_some'] at h
    obtain ⟨⟨i2, n2, ins2, tr2⟩, hloop, heqq⟩ := h
    simp only [Prod.mk.injEq] at heqq
    obtain ⟨⟨hw, hfast⟩, hn, -, -⟩ := heqq
    constructor
    · intro _
      rw [← hn, ← hw]
      exact write_any_loop_last value oracle n1 ins1 tr1 _ _ _ _ hloop
    · intro h0
      rw [← hfast] at h0
      exact Bool.noConfusion h0

/-- C1 amended witness: a slow-path delivery at a concrete input records
the winning side in `last`. -/
theorem write_any_last_amended_witness :
    ({ peers := ⟨Peer.new, Peer.new, Peer.new, Peer.new⟩, acc := 0, bak := 0,
        last := some (Side.from_index 0) } : Node).last = some (Side.from_index 0) :=
  (write_any_last_amended Node.new 7 ⟨["GET", "ACK"], [], [], []⟩
    [⟨true, false, false, false⟩] 0 false
    { peers := ⟨Peer.new, Peer.new, Peer.new, Peer.new⟩, acc := 0, bak := 0,
      last := some (Side.from_index 0) }
    ⟨[], [], [], []⟩ [(0, valueLine 7)] rfl).1 rfl

/-! ## Claim theorems: wildcard receive (`read_any`) -/

/-- A `finish_read` that yields a value clears `sent_get`. -/
theorem finish_read_ret_some_sent {p : Peer} {input : List String}
    {st : PeerStep (Option Int)} {x : Int}
    (h : p.finish_read input = some st) (hr : st.ret = some x) :
    st.peer.sent_get = false := by
  unfold Peer.finish_read at h
  iterate 8 (all_goals try split at h)
  all_goals first
    | exact Option.noConfusion h
    | (injection h with h2; subst h2; simp_all)

/-- A `finish_read` that yields no value keeps `sent_get` as it was. -/
theorem finish_read_ret_none_sent {p : Peer} {input : List String}
    {st : PeerStep (Option Int)}
    (h : p.finish_read input = some st) (hr : st.ret = none) :
    st.peer.sent_get = p.sent_get := by
  unfold Peer.finish_read at h
  iterate 8 (all_goals try split at h)
  all_goals first
    | exact Option.noConfusion h
    | (injection h with h2; subst h2; simp_all)

/-- `request_read` always leaves `sent_get` set. -/
theorem request_read_sent (p : Peer) : p.request_read.1.sent_get = true := by
  by_cases h : p.sent_get <;> simp [Peer.request_read, h]

/-- Every index is visited by a `for i in 0..4` loop. -/
theorem mem_sides4 (j : Fin 4) : j ∈ sides4 := by
  fin_cases j <;> decide

theorem sides4_nodup : sides4.Nodup := by decide

/-- `cancel_read` as a conditional on `sent_get`. -/
theorem cancel_read_eq (p : Peer) :
    p.cancel_read =
      if p.sent_get then
        ({ p with sent_get := false, cancelled_gets := p.cancelled_gets + 1 }, ["NAK\n"])
      else (p, []) := by
  by_cases h : p.sent_get <;> simp [Peer.cancel_read, h]

/-- After the request phase of `read_any`, every requested peer has
`sent_get` set, the untouched peers are unchanged, and `last` is
preserved. -/
theorem read_any_requests_char :
    ∀ (l : List (Fin 4)), l.Nodup → ∀ (n : Node) (tr : List (Fin 4 × String)),
      (∀ j, j ∈ l → ((read_any_requests l n tr).1.peers.get j).sent_get = true) ∧
      (∀ j, j ∉ l → (read_any_requests l n tr).1.peers.get j = n.peers.get j) ∧
      (read_any_requests l n tr).1.last = n.last := by
  intro l
  induction l with
  | nil =>
    intro _ n tr
    exact ⟨by simp, fun j _ => rfl, rfl⟩
  | cons i is ih =>
    intro hl n tr
    obtain ⟨hi, his⟩ := List.nodup_cons.mp hl
    have IH := ih his (n.setPeer i (n.peers.get i).request_read.1)
      (tr ++ (n.peers.get i).request_read.2.map fun s => (i, s))
    simp only [read_any_requests]
    refine ⟨?_, ?_, ?_⟩
    · intro j hj
      rcases List.mem_cons.mp hj with rfl | hj2
      · rw [IH.2.1 j hi]
        have hset : (n.setPeer j (n.peers.get j).request_read.1).peers.get j =
            (n.peers.get j).request_read.1 := Quad.get_set_same n.peers j _
        rw [hset]
        exact request_read_sent (n.peers.get j)
      · exact IH.1 j hj2
    · intro j hj
      have hji : j ≠ i := fun e => hj (e ▸ List.mem_cons_self i is)
      have hjis : j ∉ is := fun e => hj (List.mem_cons_of_mem i e)
      rw [IH.2.1 j hjis]
      exact Quad.get_set_ne n.peers i j _ hji
    · exact IH.2.2.trans rfl

/-- If every peer entered the finish scan with `sent_get` set, then when
the scan yields a winner `w`, the winner's `sent_get` has been cleared,
every other peer still has `sent_get` set, and `last` is untouched. -/
theorem read_any_scan_post :
    ∀ (l : List (Fin 4)) (ready : Quad Bool) (n : Node) ins tr
      (w : Fin 4) (x : Int) n2 ins2 tr2,
      (∀ j, (n.peers.get j).sent_get = true) →
      read_any_scan ready l n ins tr = some (some (w, x), n2, ins2, tr2) →
      (n2.peers.get w).sent_get = false ∧
      (∀ j, j ≠ w → (n2.peers.get j).sent_get = true) ∧
      n2.last = n.last ∧
      ready.get w = true ∧
      ∃ (p : Peer) (inp : List String) (st : PeerStep (Option Int)),
        p.finish_read inp = some st ∧ st.ret = some x ∧ st.peer = n2.peers.get w := by
  intro l
  induction l with
  | nil =>
    intro ready n ins tr w x n2 ins2 tr2 hpre h
    simp [read_any_scan] at h
  | cons i is ih =>
    intro ready n ins tr w x n2 ins2 tr2 hpre h
    rw [read_any_scan] at h
    split at h
    · split at h
      · exact Option.noConfusion h
      · next st hst =>
        split at h
        · next y hy =>
          simp only [Option.some.injEq, Prod.mk.injEq] at h
          obtain ⟨⟨hiw, hyx⟩, hn, -, -⟩ := h
          subst hiw
          subst hyx
          rw [← hn]
          have hset : (n.setPeer i st.peer).peers.get i = st.peer :=
            Quad.get_set_same n.peers i _
          refine ⟨?_, ?_, rfl, by assumption, n.peers.get i, ins.get i, st, hst, hy,
            hset.symm⟩
          · rw [hset]
            exact finish_read_ret_some_sent hst hy
          · intro j hj
            have hset2 : (n.setPeer i st.peer).peers.get j = n.peers.get j :=
              Quad.get_set_ne n.peers i j _ hj
            rw [hset2]
            exact hpre j
        · next hy =>
          have hpre' : ∀ j, (((n.setPeer i st.peer).peers.get j).sent_get) = true := by
            intro j
            by_cases hji : j = i
            · subst hji
              have hset : (n.setPeer j st.peer).peers.get j = st.peer :=
                Quad.get_set_same n.peers j _
              rw [hset, finish_read_ret_none_sent hst hy]
              exact hpre j
            · have hset : (n.setPeer i st.peer).peers.get j = n.peers.get j :=
                Quad.get_set_ne n.peers i j _ hji
              rw [hset]
              exact hpre j
          have IH := ih ready _ _ _ _ _ _ _ _ hpre' h
          exact ⟨IH.1, IH.2.1, IH.2.2.1.trans rfl, IH.2.2.2.1, IH.2.2.2.2⟩
    · exact ih ready n ins tr w x n2 ins2 tr2 hpre h

/-- The cancel phase of `read_any`: every visited peer with a pending
request is retracted (`sent_get` cleared, `cancelled_gets` incremented,
one `"NAK\n"` written), peers without a pending request and unvisited
peers are untouched, and `last` is preserved; the appended trace is
exactly one NAK per visited pending peer, in visit order. -/
theorem read_any_cancel_char :
    ∀ (l : List (Fin 4)), l.Nodup → ∀ (n : Node) (tr : List (Fin 4 × String)),
      (∀ j, j ∈ l → (read_any_cancel l n tr).1.peers.get j =
        (if (n.peers.get j).sent_get then
          { (n.peers.get j) with
            sent_get := false,
            cancelled_gets := (n.peers.get j).cancelled_gets + 1 }
         else n.peers.get j)) ∧
      (∀ j, j ∉ l → (read_any_cancel l n tr).1.peers.get j = n.peers.get j) ∧
      (read_any_cancel l n tr).1.last = n.last ∧
      (read_any_cancel l n tr).2 =
        tr ++ (l.filter fun j => (n.peers.get j).sent_get).map fun j => (j, "NAK\n") := by
  intro l
  induction l with
  | nil =>
    intro _ n tr
    exact ⟨by simp, fun j _ => rfl, rfl, by simp [read_any_cancel]⟩
  | cons i is ih =>
    intro hl n tr
    obtain ⟨hi, his⟩ := List.nodup_cons.mp hl
    have IH := ih his (n.setPeer i (n.peers.get i).cancel_read.1)
      (tr ++ (n.peers.get i).cancel_read.2.map fun s => (i, s))
    have hgetsame : (n.setPeer i (n.peers.get i).cancel_read.1).peers.get i =
        (n.peers.get i).cancel_read.1 := Quad.get_set_same n.peers i _
    have hgetne : ∀ j, j ≠ i →
        (n.setPeer i (n.peers.get i).cancel_read.1).peers.get j = n.peers.get j :=
      fun j hj => Quad.get_set_ne n.peers i j _ hj
    simp only [read_any_cancel]
    refine ⟨?_, ?_, ?_, ?_⟩
    · intro j hj
      rcases List.mem_cons.mp hj with rfl | hj2
      · rw [IH.2.1 j hi, hgetsame, cancel_read_eq]
        by_cases hs : (n.peers.get j).sent_get <;> simp [hs]
      · have hji : j ≠ i := fun e => hi (e ▸ hj2)
        rw [IH.1 j hj2, hgetne j hji]
    · intro j hj
      have hji : j ≠ i := fun e => hj (e ▸ List.mem_cons_self i is)
      have hjis : j ∉ is := fun e => hj (List.mem_cons_of_mem i e)
      rw [IH.2.1 j hjis, hgetne j hji]
    · exact IH.2.2.1.trans rfl
    · rw [IH.2.2.2]
      have hfc : (is.filter fun j =>
            ((n.setPeer i (n.peers.get i).cancel_read.1).peers.get j).sent_get) =
          is.filter fun j => (n.peers.get j).sent_get := by
        apply List.filter_congr
        intro j hj
        rw [hgetne j (fun e => hi (e ▸ hj))]
      rw [hfc, cancel_read_eq]
      by_cases hs : (n.peers.get i).sent_get <;>
        simp [hs, List.filter_cons, List.append_assoc]

/-- Postcondition of the `read_any` outer loop when it returns a value:
the winner's side is in `last`, no request is left pending anywhere, and
relative to the mid-state (the state between the winning `finish_read`
and the cancel sweep) the winner is untouched by cancellation while
every other peer got exactly one NAK and one `cancelled_gets` increment. -/
theorem read_any_loop_post :
    ∀ (oracle : List (Quad Bool)) (n : Node) ins tr (w : Fin 4) (x : Int) n' ins' tr',
      read_any_loop oracle n ins tr = some ((w, x), n', ins', tr') →
      n'.last = some (Side.from_index w) ∧
      (∀ j, (n'.peers.get j).sent_get = false) ∧
      ∃ (nMid : Node) (trMid : List (Fin 4 × String)),
        nMid.last = some (Side.from_index w) ∧
        (nMid.peers.get w).sent_get = false ∧
        (∀ j, j ≠ w → (nMid.peers.get j).sent_get = true) ∧
        n'.peers.get w = nMid.peers.get w ∧
        (∀ j, j ≠ w → n'.peers.get j =
          { (nMid.peers.get j) with
            sent_get := false,
            cancelled_gets := (nMid.peers.get j).cancelled_gets + 1 }) ∧
        tr' = trMid ++ ((sides4.filter fun j => j != w).map fun j => (j, "NAK\n")) ∧
        (∃ ready, ready ∈ oracle ∧ ready.get w = true) ∧
        (∃ (p : Peer) (inp : List String) (st : PeerStep (Option Int)),
          p.finish_read inp = some st ∧ st.ret = some x ∧
          st.peer = nMid.peers.get w) := by
  intro oracle
  induction oracle with
  | nil => intro n ins tr w x n' ins' tr' h; exact Option.noConfusion h
  | cons ready rest ih =>
    intro n ins tr w x n' ins' tr' h
    rw [read_any_loop] at h
    split at h
    · exact Option.noConfusion h
    · next i y n1 ins1 tr1 heq =>
      simp only [Option.some.injEq, Prod.mk.injEq] at h
      obtain ⟨⟨hiw, hyx⟩, hn, -, htr⟩ := h
      subst hiw
      subst hyx
      have hrq := read_any_requests_char sides4 sides4_nodup n tr
      have hpre : ∀ j, (((read_any_requests sides4 n tr).1).peers.get j).sent_get = true :=
        fun j => hrq.1 j (mem_sides4 j)
      have hscan := read_any_scan_post sides4 ready _ ins _ i y n1 ins1 tr1 hpre heq
      have hw0 : (({ n1 with last := some (Side.from_index i) } : Node).peers.get i).sent_get
          = false := hscan.1
      have ho : ∀ j, j ≠ i →
          (({ n1 with last := some (Side.from_index i) } : Node).peers.get j).sent_get
            = true := fun j hj => hscan.2.1 j hj
      have hcan := read_any_cancel_char sides4 sides4_nodup
        { n1 with last := some (Side.from_index i) } tr1
      have hfeq : (sides4.filter fun j =>
            (({ n1 with last := some (Side.from_index i) } : Node).peers.get j).sent_get) =
          sides4.filter fun j => j != i := by
        apply List.filter_congr
        intro j hj
        by_cases hji : j = i
        · subst hji
          simp [hw0]
        · simp [ho j hji, hji]
      refine ⟨?_, ?_, { n1 with last := some (Side.from_index i) }, tr1, rfl, hw0, ho,
        ?_, ?_, ?_, ⟨ready, List.mem_cons_self ready rest, hscan.2.2.2.1⟩,
        hscan.2.2.2.2⟩
      · rw [← hn]
        exact hcan.2.2.1.trans rfl
      · intro j
        rw [← hn, hcan.1 j (mem_sides4 j)]
        by_cases hji : j = i
        · subst hji
          simp [hw0]
        · simp [ho j hji]
      · rw [← hn, hcan.1 i (mem_sides4 i)]
        simp [hw0]
      · intro j hji
        rw [← hn, hcan.1 j (mem_sides4 j)]
        simp [ho j hji]
      · rw [← htr, hcan.2.2.2, hfeq]
    · next n1 ins1 tr1 heq =>
      obtain ⟨hA, hB, nM, trM, hc1, hc2, hc3, hc4, hc5, hc6, ⟨rd, hrdmem, hrdw⟩, hprov⟩ :=
        ih _ _ _ _ _ _ _ _ h
      exact ⟨hA, hB, nM, trM, hc1, hc2, hc3, hc4, hc5, hc6,
        ⟨rd, List.mem_cons_of_mem ready hrdmem, hrdw⟩, hprov⟩

/-- C4: when `read_any()` returns a value, the value comes from a polled-
ready peer whose `finish_read` yielded it (the scan takes the first such
peer in index order, by construction of `read_any_scan`), the winning
peer's side is recorded in `last`, and `cancel_read` has swept every peer
so none is left with `sent_get` set; relative to the state just before
the sweep the winner (whose `sent_get` was already cleared by its
successful `finish_read`) is unchanged by its `cancel_read`, while each
of the other three peers — all still holding an outstanding request —
has written exactly one `"NAK\n"` and had `cancelled_gets` incremented
by exactly one. -/
theorem read_any_post (n : Node) (ins : Quad (List String)) (oracle : List (Quad Bool))
    (w : Fin 4) (x : Int) (n' : Node) (ins' : Quad (List String))
    (tr' : List (Fin 4 × String))
    (h : Node.read_any n ins oracle = some ((w, x), n', ins', tr')) :
    n'.last = some (Side.from_index w) ∧
    (∀ j, (n'.peers.get j).sent_get = false) ∧
    ∃ (nMid : Node) (trMid : List (Fin 4 × String)),
      nMid.last = some (Side.from_index w) ∧
      (nMid.peers.get w).sent_get = false ∧
      (∀ j, j ≠ w → (nMid.peers.get j).sent_get = true) ∧
      n'.peers.get w = nMid.peers.get w ∧
      (∀ j, j ≠ w → n'.peers.get j =
        { (nMid.peers.get j) with
          sent_get := false,
          cancelled_gets := (nMid.peers.get j).cancelled_gets + 1 }) ∧
      tr' = trMid ++ ((sides4.filter fun j => j != w).map fun j => (j, "NAK\n")) ∧
      (∃ ready, ready ∈ oracle ∧ ready.get w = true) ∧
      (∃ (p : Peer) (inp : List String) (st : PeerStep (Option Int)),
        p.finish_read inp = some st ∧ st.ret = some x ∧
        st.peer = nMid.peers.get w) :=
  read_any_loop_post oracle n ins [] w x n' ins' tr' h

/-- C4 witness: a concrete `read_any` where peer 0 supplies `42`; the
theorem applies and in particular stamps side 0 into `last`. -/
theorem read_any_post_witness :
    ({ peers := ⟨Peer.mk false false 0, Peer.mk false false 1, Peer.mk false false 1,
                 Peer.mk false false 1⟩,
       acc := 0, bak := 0,
       last := some (Side.from_index 0) } : Node).last = some (Side.from_index 0) ∧
    (∀ j, ((({ peers := ⟨Peer.mk false false 0, Peer.mk false false 1,
                         Peer.mk false false 1, Peer.mk false false 1⟩,
               acc := 0, bak := 0,
               last := some (Side.from_index 0) } : Node).peers.get j).sent_get) = false) := by
  have h := read_any_post Node.new ⟨["42"], [], [], []⟩ [⟨true, false, false, false⟩]
    0 42
    { peers := ⟨Peer.mk false false 0, Peer.mk false false 1, Peer.mk false false 1,
                Peer.mk false false 1⟩,
      acc := 0, bak := 0,
      last := some (Side.from_index 0) }
    ⟨[], [], [], []⟩
    [(0, "GET\n"), (1, "GET\n"), (2, "GET\n"), (3, "GET\n"),
      (0, "ACK\n"), (1, "NAK\n"), (2, "NAK\n"), (3, "NAK\n")] rfl
  exact ⟨h.1, h.2.1⟩
